import Mathlib

/-!
Verification of the CV-processing core of the HR_Automation_System repository
(hr_app/utils/cv_parser.py and the pipeline sequencing of hr_app/views.py
process_cv), as a shallow embedding over List Char.

Modelling conventions:
* Python strings are List Char; only the ASCII fragment of the Python regex
  classes (\s, \w, \d, [a-z]) is modelled, which covers every input that the
  source and its claims exercise.
* Python float is modelled by Rat; every arithmetic operation the source
  performs on experience values (mean of two small integers, division by 12,
  maximum) is exact on the inputs considered.
* Exceptions raised by the optional PDF/DOCX libraries are modelled as data:
  a behaviour record says what each library call would have produced and at
  which point it would have raised, and the extraction functions fold over
  that record exactly as the try/except chains of the source do.
* Each re.sub / re.search / re.findall call of the source is implemented as
  a dedicated matcher following the backtracking order of the Python engine
  (greedy quantifiers try long first, lazy ones short first, alternation is
  left first, re.search takes the leftmost start, re.findall scans
  non-overlapping matches left to right).  Where shrinking a greedy
  quantifier provably cannot help (the following literal cannot match any
  character the quantifier accepts), the matcher takes the maximal run
  directly; each such place is noted.
-/

/-- Python \s restricted to ASCII: space, tab, newline, carriage return,
vertical tab, form feed. -/
def isPySpace (c : Char) : Bool :=
  c = ' ' || c = '\t' || c = '\n' || c = '\r' || c = Char.ofNat 11 || c = Char.ofNat 12

/-- Python \w restricted to ASCII: letters, digits, underscore. -/
def isWordChar (c : Char) : Bool :=
  c.isAlphanum || c = '_'

/-- The character whitelist of clean_extracted_text:
characters kept by re.sub removing everything outside \w, \s and
. , : ; ! ? @ ( ) - / . -/
def isAllowedChar (c : Char) : Bool :=
  isWordChar c || isPySpace c ||
  c = '.' || c = ',' || c = ':' || c = ';' || c = '!' || c = '?' ||
  c = '@' || c = '(' || c = ')' || c = '-' || c = '/'

/-- One pass of re.sub replacing every maximal run of whitespace by a single
space.  The Bool flag records whether we are inside a whitespace run whose
single replacement space has already been emitted. -/
def collapseWsA : Bool → List Char → List Char
  | _, [] => []
  | inRun, c :: rest =>
    if isPySpace c then
      if inRun then collapseWsA true rest
      else ' ' :: collapseWsA true rest
    else c :: collapseWsA false rest

/-- re.sub matching a whitespace run and replacing it with a single space,
applied to the whole string. -/
def collapseWs (l : List Char) : List Char :=
  collapseWsA false l

/-- re.sub replacing every character outside the whitelist with a space. -/
def mapAllowed (l : List Char) : List Char :=
  l.map (fun c => if isAllowedChar c then c else ' ')

/-- str.replace of the two-character sequence CR LF by LF, scanning left to
right without overlap. -/
def replCrLf : List Char → List Char
  | [] => []
  | [c] => [c]
  | c :: d :: rest =>
    if c = '\r' && d = '\n' then '\n' :: replCrLf rest
    else c :: replCrLf (d :: rest)

/-- str.replace of CR by LF. -/
def replCr (l : List Char) : List Char :=
  l.map (fun c => if c = '\r' then '\n' else c)

/-- Index of the last newline inside the leading whitespace run of the list,
if any.  This is where the greedy backtracking of the inner whitespace
quantifier of the blank-line pattern ends up: it consumes as much whitespace
as possible and then backs off to the last position holding a newline. -/
def lastNlInRun : List Char → Option Nat
  | [] => none
  | c :: rest =>
    if isPySpace c then
      match lastNlInRun rest with
      | some k => some (k + 1)
      | none => if c = '\n' then some 0 else none
    else none

/-- Fuelled scanner for re.sub replacing a newline, then optional whitespace,
then a newline, by exactly two newlines; matches are non-overlapping and the
scan resumes after each replacement.  Every match consumes at least two
characters, so fuel equal to the length of the list is always enough; with
exhausted fuel the rest of the list is returned unchanged. -/
def collapseBlankF : Nat → List Char → List Char
  | 0, l => l
  | _ + 1, [] => []
  | fuel + 1, c :: rest =>
    if c = '\n' then
      match lastNlInRun rest with
      | some k => '\n' :: '\n' :: collapseBlankF fuel (rest.drop (k + 1))
      | none => c :: collapseBlankF fuel rest
    else c :: collapseBlankF fuel rest

/-- The blank-line-collapsing re.sub of clean_extracted_text. -/
def collapseBlank (l : List Char) : List Char :=
  collapseBlankF l.length l

/-- Drop trailing Python whitespace, keeping everything else. -/
def dropTrailingWs : List Char → List Char
  | [] => []
  | c :: rest =>
    let r := dropTrailingWs rest
    if r.isEmpty && isPySpace c then [] else c :: r

/-- Python str.strip: drop leading and trailing whitespace. -/
def pyStrip (l : List Char) : List Char :=
  dropTrailingWs (l.dropWhile isPySpace)

/-- CVParser.clean_extracted_text: the five steps of the source in order.
The empty string is falsy in Python, hence the leading test. -/
def clean_extracted_text (l : List Char) : List Char :=
  if l.isEmpty then []
  else pyStrip (collapseBlank (replCr (replCrLf (mapAllowed (collapseWs l)))))

/-- Outcome of the two page-oriented PDF libraries and of pdfminer for one
document, with the point at which each call would raise modelled as data.
A pages entry of none stands for a page whose extract_text returned None or
an empty string (falsy, hence skipped by the source). -/
structure PdfBehavior where
  plumberAvail : Bool
  plumberPages : List (Option (List Char))
  plumberFails : Option Nat
  pypdfAvail : Bool
  pypdfPages : List (Option (List Char))
  pypdfFails : Option Nat
  minerAvail : Bool
  minerText : Option (List Char)

/-- Text accumulated from the first n pages, each truthy page text followed
by a newline, exactly as both page loops of the source append. -/
def pagesText (pages : List (Option (List Char))) (n : Nat) : List Char :=
  (pages.take n).foldl
    (fun acc p =>
      match p with
      | some t => if t.isEmpty then acc else acc ++ t ++ ['\n']
      | none => acc)
    []

/-- CVParser.extract_text_from_pdf on a modelled document.  A strategy that
raises keeps the text accumulated so far (the except block only prints), a
strategy that completes returns the text when its strip is truthy, and
pdfminer reassigns the variable rather than appending. -/
def extract_text_from_pdf (b : PdfBehavior) : List Char :=
  let n1 := match b.plumberFails with
    | some k => min k b.plumberPages.length
    | none => b.plumberPages.length
  let t1 := if b.plumberAvail then pagesText b.plumberPages n1 else []
  if b.plumberAvail && b.plumberFails.isNone && !(pyStrip t1).isEmpty then t1
  else
    let n2 := match b.pypdfFails with
      | some k => min k b.pypdfPages.length
      | none => b.pypdfPages.length
    let t2 := if b.pypdfAvail then t1 ++ pagesText b.pypdfPages n2 else t1
    if b.pypdfAvail && b.pypdfFails.isNone && !(pyStrip t2).isEmpty then t2
    else
      match b.minerAvail, b.minerText with
      | true, some t => t
      | true, none => t2
      | false, _ => t2

/-- Outcome of python-docx for one document: the paragraph texts in document
order, then the table cell texts row-major, with the number of appends after
which the parse would raise modelled as data. -/
structure DocxBehavior where
  avail : Bool
  paragraphs : List (List Char)
  tableCells : List (List Char)
  failsAfter : Option Nat

/-- Each item followed by a newline, as both docx append loops do
(no truthiness check in the docx path of the source). -/
def docxJoin (items : List (List Char)) : List Char :=
  items.foldl (fun acc p => acc ++ p ++ ['\n']) []

/-- CVParser.extract_text_from_docx on a modelled document. -/
def extract_text_from_docx (b : DocxBehavior) : List Char :=
  if !b.avail then []
  else
    let items := b.paragraphs ++ b.tableCells
    let n := match b.failsAfter with
      | some k => min k items.length
      | none => items.length
    docxJoin (items.take n)

/-- CVParser.extract_text: dispatch on the lowercased extension; an
unsupported extension raises ValueError with the message of the source,
modelled as the error branch. -/
def extract_text (ext : List Char) (pdf : PdfBehavior) (dx : DocxBehavior) :
    Except (List Char) (List Char) :=
  let e := ext.map Char.toLower
  if e = ".pdf".toList then Except.ok (extract_text_from_pdf pdf)
  else if e = ".docx".toList then Except.ok (extract_text_from_docx dx)
  else Except.error ("Unsupported file format: ".toList ++ e)

/-- Bool view of Except success. -/
def exceptIsOk : Except (List Char) (List Char) → Bool
  | Except.ok _ => true
  | Except.error _ => false

/-- CVAnalyzer.SKILL_KEYWORDS: canonical tag with its ordered variation
list, in the dict insertion order of the source. -/
def SKILL_KEYWORDS : List (String × List String) :=
  [("python", ["python", "python3", "python 3", "python programming", "django",
               "flask", "fastapi", "pandas", "numpy"]),
   ("java", ["java", "java programming", "spring", "spring boot",
             "spring framework", "hibernate", "j2ee"]),
   ("javascript", ["javascript", "js", "node.js", "nodejs", "react", "angular",
                   "vue", "typescript", "express.js"]),
   ("sql", ["sql", "mysql", "postgresql", "postgres", "oracle", "sql server",
            "database", "mongodb"]),
   ("excel", ["excel", "microsoft excel", "spreadsheet", "vlookup",
              "pivot table"]),
   ("ml", ["machine learning", "ml", "ai", "artificial intelligence",
           "deep learning", "neural network", "tensorflow", "pytorch"]),
   ("data_analysis", ["data analysis", "data analytics", "power bi", "tableau",
                      "data visualization", "business intelligence"]),
   ("web_development", ["html", "css", "bootstrap", "web development",
                        "frontend", "backend", "full stack"]),
   ("cloud", ["aws", "amazon web services", "azure", "google cloud", "gcp",
              "cloud computing", "docker", "kubernetes"]),
   ("testing", ["testing", "selenium", "junit", "testng", "automation testing",
                "manual testing"]),
   ("devops", ["devops", "ci/cd", "jenkins", "git", "github", "gitlab"])]

/-- Whether the escaped variation, which always starts and ends in a word
character, matches here with word boundaries on both sides: the previous
character is not a word character, the pattern is a literal prefix, and the
character following it, if any, is not a word character. -/
def wbMatchHere (prevIsWord : Bool) (pat l : List Char) : Bool :=
  !prevIsWord && pat.isPrefixOf l &&
    (match (l.drop pat.length).headD ' ' , (l.drop pat.length).isEmpty with
     | c, false => !isWordChar c
     | _, true => true)

/-- re.search of a word-bounded literal: try every start position left to
right, tracking whether the previous character was a word character. -/
def wbSearch (pat : List Char) : Bool → List Char → Bool
  | _, [] => false
  | prevIsWord, c :: rest =>
    wbMatchHere prevIsWord pat (c :: rest) || wbSearch pat (isWordChar c) rest

/-- First character is not a word character (or there is none). -/
def headNotWord : List Char → Bool
  | [] => true
  | c :: _ => !isWordChar c

/-- The section terminator group: either two newlines, or a newline followed
by at least one word character, the maximal run of which is followed by a
colon.  Shrinking the greedy one-or-more word quantifier cannot help, since
the colon it requires is not a word character. -/
def wordRunColonAux : List Char → Bool
  | [] => false
  | c :: rest => if isWordChar c then wordRunColonAux rest else c = ':'

/-- One-or-more word characters followed by a colon. -/
def wordRunColon : List Char → Bool
  | [] => false
  | c :: rest => isWordChar c && wordRunColonAux rest

/-- Does the terminator of the section patterns match at this position. -/
def secTerminator : List Char → Bool
  | '\n' :: '\n' :: _ => true
  | '\n' :: rest => wordRunColon rest
  | _ => false

/-- The lazy dot-star capture under DOTALL: shortest prefix after which the
terminator matches, tried from length zero upward. -/
def lazyCapture : List Char → Option (List Char)
  | [] => none
  | c :: rest =>
    if secTerminator (c :: rest) then some []
    else (lazyCapture rest).map (fun cap => c :: cap)

/-- Handle the empty-remainder corner of the lazy capture: a capture of
length zero is also tried on the empty remainder, where the terminator
cannot match, so the result is none either way; lazyCapture already
returns none there. -/
def greedyWsColon : List Char → Option (List Char)
  | [] => lazyCapture []
  | c :: rest =>
    if isPySpace c || c = ':' then
      match greedyWsColon rest with
      | some cap => some cap
      | none => lazyCapture (c :: rest)
    else lazyCapture (c :: rest)

/-- The sub-pattern: skill, optional s, optional whitespace-or-colon run,
lazy capture, terminator.  The greedy optional s is tried consumed first;
the fallback without it puts the s at the start of the whitespace-or-colon
run, exactly as the engine backtracks. -/
def skillsLabelCap (l : List Char) : Option (List Char) :=
  if "skills".toList.isPrefixOf l then
    match greedyWsColon (l.drop 6) with
    | some cap => some cap
    | none => greedyWsColon (l.drop 5)
  else if "skill".toList.isPrefixOf l then greedyWsColon (l.drop 5)
  else none

/-- The technical-skills pattern: the literal, a greedy whitespace run tried
longest first, then the skills sub-pattern. -/
def techAfterWs : List Char → Option (List Char)
  | [] => skillsLabelCap []
  | c :: rest =>
    if isPySpace c then
      match techAfterWs rest with
      | some cap => some cap
      | none => skillsLabelCap (c :: rest)
    else skillsLabelCap (c :: rest)

/-- Label matcher of the technical skills section pattern. -/
def techLabelCap (l : List Char) : Option (List Char) :=
  if "technical".toList.isPrefixOf l then techAfterWs (l.drop 9) else none

/-- Label matcher of the expertise section pattern. -/
def expertiseLabelCap (l : List Char) : Option (List Char) :=
  if "expertise".toList.isPrefixOf l then greedyWsColon (l.drop 9) else none

/-- Label matcher of the summary section pattern of extract_experience:
alternation tried left first; the three literals start with distinct
characters, so at most one applies at a position. -/
def summaryLabelCap (l : List Char) : Option (List Char) :=
  if "summary".toList.isPrefixOf l then greedyWsColon (l.drop 7)
  else if "objective".toList.isPrefixOf l then greedyWsColon (l.drop 9)
  else if "profile".toList.isPrefixOf l then greedyWsColon (l.drop 7)
  else none

/-- re.search for a section pattern: leftmost start position whose full
match succeeds wins; the captured group is returned. -/
def sectionSearch (m : List Char → Option (List Char)) : List Char → Option (List Char)
  | [] => m []
  | c :: rest =>
    match m (c :: rest) with
    | some cap => some cap
    | none => sectionSearch m rest

/-- The inner loop of both phases of extract_skills: for each tag in order,
if some variation passes the test, append the tag unless already present,
and stop checking further variations of that tag. -/
def addSkills (test : String → Bool) : List (String × List String) → List String → List String
  | [], acc => acc
  | (skill, vars) :: rest, acc =>
    addSkills test rest
      (if vars.any test then
        (if acc.contains skill then acc else acc ++ [skill])
       else acc)

/-- Python substring membership test, scanning every suffix. -/
def listIsInfixOf (pat : List Char) : List Char → Bool
  | [] => pat.isPrefixOf []
  | c :: rest => pat.isPrefixOf (c :: rest) || listIsInfixOf pat rest

/-- One context pass of extract_skills: if the section pattern matched, run
the tag loop with plain substring tests against the lowercased capture. -/
def sectionPass (sec : Option (List Char)) (acc : List String) : List String :=
  match sec with
  | some s => addSkills (fun v => listIsInfixOf v.toList (s.map Char.toLower)) SKILL_KEYWORDS acc
  | none => acc

/-- CVAnalyzer.extract_skills: the word-bounded whole-text pass, then the
three section passes in source order. -/
def extract_skills (text : List Char) : List String :=
  let tl := text.map Char.toLower
  let s1 := addSkills (fun v => wbSearch v.toList false tl) SKILL_KEYWORDS []
  let s2 := sectionPass (sectionSearch skillsLabelCap tl) s1
  let s3 := sectionPass (sectionSearch techLabelCap tl) s2
  sectionPass (sectionSearch expertiseLabelCap tl) s3


/-- Numeric value of a run of ASCII digits, as Python float conversion of a
digit string (exact). -/
def natOfDigits (ds : List Char) : Nat :=
  ds.foldl (fun n c => n * 10 + (c.toNat - 48)) 0

/-- Generic re.findall driver: try a match at every position left to right;
on a match, record its group and resume after the match.  Every matcher
below consumes at least one character, so fuel equal to the length of the
scanned list is always enough. -/
def scanWith (m : List Char → Option (α × List Char)) : Nat → List Char → List α
  | 0, _ => []
  | _ + 1, [] => []
  | fuel + 1, c :: rest =>
    match m (c :: rest) with
    | some (v, r) => v :: scanWith m fuel r
    | none => scanWith m fuel rest

/-- re.findall over a whole string. -/
def findallWith (m : List Char → Option (α × List Char)) (l : List Char) : List α :=
  scanWith m l.length l

/-- The literal experience, consumed. -/
def expLit (r : List Char) : Option (List Char) :=
  if "experience".toList.isPrefixOf r then some (r.drop 10) else none

/-- The tail of the first experience pattern after the years token: greedy
whitespace, optional plus sign tried consumed first, greedy whitespace, the
literal experience.  Shrinking either whitespace run cannot help, since the
characters that must follow are never whitespace. -/
def afterYearsP1 (r : List Char) : Option (List Char) :=
  let r1 := r.dropWhile isPySpace
  match r1 with
  | '+' :: r2 =>
    match expLit (r2.dropWhile isPySpace) with
    | some r3 => some r3
    | none => expLit r1
  | _ => expLit r1

/-- The years-or-yrs alternation of the first two experience patterns, each
alternative tried left first and greedily, followed by the given
continuation. -/
def yearsTokThen (k : List Char → Option (List Char)) (r : List Char) : Option (List Char) :=
  match (if "years".toList.isPrefixOf r then k (r.drop 5) else none) with
  | some r2 => some r2
  | none =>
    match (if "year".toList.isPrefixOf r then k (r.drop 4) else none) with
    | some r2 => some r2
    | none =>
      match (if "yrs".toList.isPrefixOf r then k (r.drop 3) else none) with
      | some r2 => some r2
      | none => if "yr".toList.isPrefixOf r then k (r.drop 2) else none

/-- Experience pattern 1: digits, whitespace, years token, optional plus,
experience.  The greedy digit run cannot usefully shrink: the years token
the pattern then requires starts with a letter, never a digit. -/
def p1At (l : List Char) : Option (Nat × List Char) :=
  let ds := l.takeWhile Char.isDigit
  if ds.isEmpty then none
  else
    match yearsTokThen afterYearsP1 ((l.drop ds.length).dropWhile isPySpace) with
    | some r2 => some (natOfDigits ds, r2)
    | none => none

/-- The numeric tail of experience pattern 2 at a fixed position: greedy
digits, greedy whitespace, years token with nothing after it. -/
def p2Num (l : List Char) : Option (Nat × List Char) :=
  let ds := l.takeWhile Char.isDigit
  if ds.isEmpty then none
  else
    match yearsTokThen some ((l.drop ds.length).dropWhile isPySpace) with
    | some r2 => some (natOfDigits ds, r2)
    | none => none

/-- The lazy dot-star of experience pattern 2 (no DOTALL, so it cannot cross
a newline): shortest gap after which the numeric tail matches. -/
def p2Gap : List Char → Option (Nat × List Char)
  | [] => none
  | c :: rest =>
    match p2Num (c :: rest) with
    | some res => some res
    | none => if c = '\n' then none else p2Gap rest

/-- Experience pattern 2: the literal experience, a lazy gap, digits, years
token. -/
def p2At (l : List Char) : Option (Nat × List Char) :=
  if "experience".toList.isPrefixOf l then p2Gap (l.drop 10) else none

/-- The year-with-optional-s token of patterns 3 and 4, greedy. -/
def yearTok (r : List Char) : Option (List Char) :=
  if "years".toList.isPrefixOf r then some (r.drop 5)
  else if "year".toList.isPrefixOf r then some (r.drop 4)
  else none

/-- Experience pattern 3: digits, optional plus (consumed greedily; without
it the following whitespace-then-years cannot start with a plus sign),
whitespace, years token. -/
def p3At (l : List Char) : Option (Nat × List Char) :=
  let ds := l.takeWhile Char.isDigit
  if ds.isEmpty then none
  else
    let r0 := l.drop ds.length
    let r1 := match r0 with
      | '+' :: t => t
      | _ => r0
    match yearTok (r1.dropWhile isPySpace) with
    | some r2 => some (natOfDigits ds, r2)
    | none => none

/-- Experience pattern 4: digits, whitespace, hyphen, whitespace, digits,
whitespace, years token; the two captured groups. -/
def p4At (l : List Char) : Option ((Nat × Nat) × List Char) :=
  let ds := l.takeWhile Char.isDigit
  if ds.isEmpty then none
  else
    match (l.drop ds.length).dropWhile isPySpace with
    | '-' :: r2 =>
      let r3 := r2.dropWhile isPySpace
      let ds2 := r3.takeWhile Char.isDigit
      if ds2.isEmpty then none
      else
        match yearTok ((r3.drop ds2.length).dropWhile isPySpace) with
        | some r4 => some ((natOfDigits ds, natOfDigits ds2), r4)
        | none => none
    | _ => none

/-- The month-with-optional-s token of pattern 5, greedy. -/
def monthTok (r : List Char) : Option (List Char) :=
  if "months".toList.isPrefixOf r then some (r.drop 6)
  else if "month".toList.isPrefixOf r then some (r.drop 5)
  else none

/-- Experience pattern 5: digits, whitespace, month token. -/
def p5At (l : List Char) : Option (Nat × List Char) :=
  let ds := l.takeWhile Char.isDigit
  if ds.isEmpty then none
  else
    match monthTok ((l.drop ds.length).dropWhile isPySpace) with
    | some r2 => some (natOfDigits ds, r2)
    | none => none

/-- Month-name alternation of the first date pattern, tried left first. -/
def monthNames : List (List Char) :=
  ["jan".toList, "feb".toList, "mar".toList, "apr".toList, "may".toList,
   "jun".toList, "jul".toList, "aug".toList, "sep".toList, "oct".toList,
   "nov".toList, "dec".toList]

/-- Consume a month-name literal if one matches here. -/
def monthNameAt (l : List Char) : Option (List Char) :=
  match monthNames.find? (fun m => m.isPrefixOf l) with
  | some m => some (l.drop m.length)
  | none => none

/-- Exactly four digits. -/
def fourDigits (l : List Char) : Option (List Char) :=
  match l with
  | a :: b :: c :: d :: r =>
    if a.isDigit && b.isDigit && c.isDigit && d.isDigit then some r else none
  | _ => none

/-- The hyphen-or-to alternation of the date patterns, hyphen first. -/
def dashTo (l : List Char) : Option (List Char) :=
  match l with
  | '-' :: r => some r
  | 't' :: 'o' :: r => some r
  | _ => none

/-- Month name, greedy lowercase run (shrinking cannot help: required
whitespace follows), mandatory whitespace, four digits. -/
def monthYearAt (l : List Char) : Option (List Char) :=
  match monthNameAt l with
  | some r1 =>
    let r2 := r1.dropWhile Char.isLower
    let ws := r2.takeWhile isPySpace
    if ws.isEmpty then none else fourDigits (r2.drop ws.length)
  | none => none

/-- Date pattern 1: month year, separator, month year. -/
def d1At (l : List Char) : Option (Unit × List Char) :=
  match monthYearAt l with
  | some r1 =>
    match dashTo (r1.dropWhile isPySpace) with
    | some r2 =>
      match monthYearAt (r2.dropWhile isPySpace) with
      | some r3 => some ((), r3)
      | none => none
    | none => none
  | none => none

/-- One or two digits followed by a slash then four digits; two digits tried
first, as the greedy bounded quantifier does. -/
def mmSlashYyyy (l : List Char) : Option (List Char) :=
  match
    (match l with
     | a :: b :: '/' :: r => if a.isDigit && b.isDigit then fourDigits r else none
     | _ => none)
  with
  | some r => some r
  | none =>
    match l with
    | a :: '/' :: r => if a.isDigit then fourDigits r else none
    | _ => none

/-- Date pattern 2: MM/YYYY, separator, MM/YYYY. -/
def d2At (l : List Char) : Option (Unit × List Char) :=
  match mmSlashYyyy l with
  | some r1 =>
    match dashTo (r1.dropWhile isPySpace) with
    | some r2 =>
      match mmSlashYyyy (r2.dropWhile isPySpace) with
      | some r3 => some ((), r3)
      | none => none
    | none => none
  | none => none

/-- Date pattern 3: YYYY, separator, YYYY. -/
def d3At (l : List Char) : Option (Unit × List Char) :=
  match fourDigits l with
  | some r1 =>
    match dashTo (r1.dropWhile isPySpace) with
    | some r2 =>
      match fourDigits (r2.dropWhile isPySpace) with
      | some r3 => some ((), r3)
      | none => none
    | none => none
  | none => none

/-- The candidate values of the first block of extract_experience, in
pattern order: plain values for patterns 1 to 3, the arithmetic mean for the
range pattern, months divided by twelve for pattern 5.  The divisions are
built with mkRat, the exact rational with the same value as the float
quotients the source computes on these inputs. -/
def mainPatternYears (tl : List Char) : List Rat :=
  (findallWith p1At tl).map (fun v => (v : Rat)) ++
  (findallWith p2At tl).map (fun v => (v : Rat)) ++
  (findallWith p3At tl).map (fun v => (v : Rat)) ++
  (findallWith p4At tl).map (fun ab => mkRat (ab.1 + ab.2) 2) ++
  (findallWith p5At tl).map (fun v => mkRat v 12)

/-- The candidate values of the date-range block: for each date pattern with
at least two matches, twice the match count. -/
def dateYears (tl : List Char) : List Rat :=
  let c1 := (findallWith d1At tl).length
  let c2 := (findallWith d2At tl).length
  let c3 := (findallWith d3At tl).length
  (if 2 ≤ c1 then [((c1 * 2 : Nat) : Rat)] else []) ++
  (if 2 ≤ c2 then [((c2 * 2 : Nat) : Rat)] else []) ++
  (if 2 ≤ c3 then [((c3 * 2 : Nat) : Rat)] else [])

/-- The candidate values of the summary block: the five numeric patterns re-run
on the captured summary span, keeping for each match the float of its first
group with no further conversion, so a range contributes its lower bound and
a months match contributes the raw month count. -/
def summaryYears (tl : List Char) : List Rat :=
  match sectionSearch summaryLabelCap tl with
  | some sec =>
    (findallWith p1At sec).map (fun v => (v : Rat)) ++
    (findallWith p2At sec).map (fun v => (v : Rat)) ++
    (findallWith p3At sec).map (fun v => (v : Rat)) ++
    (findallWith p4At sec).map (fun ab => (ab.1 : Rat)) ++
    (findallWith p5At sec).map (fun v => (v : Rat))
  | none => []

/-- Python max of a running value and a new candidate: keep the current
value unless the new one is strictly greater. -/
def pyMax (cur x : Rat) : Rat :=
  if cur < x then x else cur

/-- CVAnalyzer.extract_experience: lowercase the text, collect the candidate
values of the three blocks, and return their maximum, or zero if none. -/
def extract_experience (text : List Char) : Rat :=
  let tl := text.map Char.toLower
  let ys := mainPatternYears tl ++ dateYears tl ++ summaryYears tl
  match ys with
  | [] => 0
  | y :: rest => rest.foldl pyMax y

/-- Python str.split on newline: always at least one piece. -/
def splitOnNl : List Char → List (List Char)
  | [] => [[]]
  | c :: rest =>
    if c = '\n' then [] :: splitOnNl rest
    else
      match splitOnNl rest with
      | [] => [[c]]
      | g :: gs => (c :: g) :: gs

/-- Python str.isupper: at least one cased character and no lowercase one
(ASCII). -/
def pyIsUpper (l : List Char) : Bool :=
  l.any Char.isAlpha && l.all (fun c => !c.isLower)

/-- The non-name prefixes rejected by extract_name, lowercase. -/
def badNamePrefixes : List (List Char) :=
  ["curriculum vitae".toList, "resume".toList, "cv".toList, "phone".toList,
   "email".toList]

/-- The per-line test of extract_name, on the stripped line. -/
def nameLineOk (s : List Char) : Bool :=
  !s.isEmpty && s.length < 50 && !(s.any Char.isDigit) && !pyIsUpper s &&
  !(badNamePrefixes.any (fun p => p.isPrefixOf (s.map Char.toLower)))

/-- First of the candidate lines whose stripped form passes the test. -/
def firstNameLine : List (List Char) → List Char
  | [] => []
  | line :: rest =>
    let s := pyStrip line
    if nameLineOk s then s else firstNameLine rest

/-- CVAnalyzer.extract_name: strip, split into lines, inspect the first
five. -/
def extract_name (text : List Char) : List Char :=
  firstNameLine ((splitOnNl (pyStrip text)).take 5)

/-- The local-part character class of the email pattern. -/
def emailLocalChar (c : Char) : Bool :=
  c.isAlphanum || c = '.' || c = '_' || c = '%' || c = '+' || c = '-'

/-- The domain character class of the email pattern. -/
def emailDomainChar (c : Char) : Bool :=
  c.isAlphanum || c = '.' || c = '-'

/-- The top-level-domain class of the email pattern: the source class is
uppercase letters, a literal vertical bar, and lowercase letters. -/
def emailTldChar (c : Char) : Bool :=
  c.isAlpha || c = '|'

/-- Word-ness of an optional character, end of string counting as
non-word. -/
def optIsWord : Option Char → Bool
  | some c => isWordChar c
  | none => false

/-- The two-or-more top-level-domain characters with a trailing word
boundary, greedy: the maximal run is tried first and shrunk one character
at a time down to length two. -/
def emailTldShrink (loc pre tailk : List Char) : Nat → Option (List Char)
  | 0 => none
  | 1 => none
  | mm + 2 =>
    if optIsWord (tailk.get? (mm + 1)) != optIsWord (tailk.get? (mm + 2)) then
      some (loc ++ '@' :: pre ++ '.' :: tailk.take (mm + 2))
    else emailTldShrink loc pre tailk (mm + 1)

/-- Start the top-level-domain attempt after a chosen dot. -/
def emailTld (loc pre tailk : List Char) : Option (List Char) :=
  emailTldShrink loc pre tailk (tailk.takeWhile emailTldChar).length

/-- The greedy domain run with backtracking: the dot the pattern then needs
is itself a domain character, so it must lie inside the maximal run; try
the dot positions from right to left. -/
def emailTrySplit (loc dom after : List Char) : Nat → Option (List Char)
  | 0 => none
  | k + 1 =>
    match
      (if dom.get? (k + 1) = some '.' then
        emailTld loc (dom.take (k + 1)) (dom.drop (k + 2) ++ after)
       else none)
    with
    | some m => some m
    | none => emailTrySplit loc dom after k

/-- Attempt the full email pattern at this position: leading word boundary,
maximal local-part run (the at sign that must follow is not a local-part
character, so shrinking cannot help), the at sign, then the domain. -/
def emailAt (prevIsWord : Bool) (l : List Char) : Option (List Char) :=
  match l with
  | [] => none
  | c0 :: _ =>
    if !emailLocalChar c0 then none
    else if isWordChar c0 = prevIsWord then none
    else
      let loc := l.takeWhile emailLocalChar
      match l.drop loc.length with
      | '@' :: r2 =>
        let dom := r2.takeWhile emailDomainChar
        if dom.isEmpty then none
        else
          match dom.length with
          | 0 => none
          | dl + 1 => emailTrySplit loc dom (r2.drop dom.length) dl
      | _ => none

/-- re.search of the email pattern: leftmost matching start wins. -/
def emailSearch : Bool → List Char → Option (List Char)
  | _, [] => none
  | prevIsWord, c :: rest =>
    match emailAt prevIsWord (c :: rest) with
    | some m => some m
    | none => emailSearch (isWordChar c) rest

/-- CVAnalyzer.extract_email: the first match, or empty. -/
def extract_email (text : List Char) : List Char :=
  match emailSearch false text with
  | some m => m
  | none => []

/-- The eleven category rules of categorize_candidate, in priority order,
each predicate exactly the lambda of the source with list membership for
the in operator. -/
def categoryRules : List (String × (List String → Rat → Bool)) :=
  [("Senior Python Developer", fun s e =>
      s.contains "python" && decide (5 ≤ e) &&
      (s.contains "django" || s.contains "flask")),
   ("Python Developer", fun s _ =>
      s.contains "python" && (s.contains "django" || s.contains "flask")),
   ("Data Scientist", fun s e =>
      s.contains "ml" && (s.contains "python" || s.contains "r") &&
      decide (2 ≤ e)),
   ("Data Analyst", fun s _ =>
      (s.contains "excel" && s.contains "sql") || s.contains "data_analysis"),
   ("Senior Java Developer", fun s e => s.contains "java" && decide (5 ≤ e)),
   ("Java Developer", fun s e => s.contains "java" && decide (1 ≤ e)),
   ("Web Developer", fun s _ =>
      s.contains "web_development" ||
      (s.contains "javascript" && s.contains "html")),
   ("Full Stack Developer", fun s e =>
      (s.contains "python" || s.contains "java" || s.contains "javascript") &&
      (s.contains "web_development" || s.contains "html") && decide (2 ≤ e)),
   ("ML Engineer", fun s e => s.contains "ml" && decide (2 ≤ e)),
   ("Cloud Engineer", fun s e => s.contains "cloud" && decide (2 ≤ e)),
   ("DevOps Engineer", fun s e => s.contains "devops" && decide (2 ≤ e))]

/-- The rule loop: first rule whose predicate holds. -/
def firstRule : List (String × (List String → Rat → Bool)) → List String → Rat → Option String
  | [], _, _ => none
  | (n, c) :: rs, s, e => if c s e then some n else firstRule rs s e

/-- The experience-only default ladder of categorize_candidate. -/
def defaultCategory (e : Rat) : String :=
  if e = 0 then "Fresher"
  else if e < 2 then "Junior Developer"
  else if e < 5 then "Mid-Level Developer"
  else "Senior Professional"

/-- CVAnalyzer.categorize_candidate. -/
def categorize_candidate (s : List String) (e : Rat) : String :=
  match firstRule categoryRules s e with
  | some n => n
  | none => defaultCategory e

/-- The document of the end-to-end claim: a DOCX whose three paragraphs are
the given lines, no tables, parsed without failure. -/
def c1Docx : DocxBehavior :=
  { avail := true,
    paragraphs := ["John Smith".toList, "john@x.com".toList,
                   "5 years experience with Python and Django".toList],
    tableCells := [],
    failsAfter := none }

/-- A document for which every PDF strategy is unavailable. -/
def noPdf : PdfBehavior :=
  { plumberAvail := false, plumberPages := [], plumberFails := none,
    pypdfAvail := false, pypdfPages := [], pypdfFails := none,
    minerAvail := false, minerText := none }

/-- The cleaned text the process_cv pipeline passes to every field
extractor for the end-to-end document. -/
def c1Text : List Char :=
  clean_extracted_text (extract_text_from_docx c1Docx)

/-- Whitespace characters of the list are all plain spaces. -/
def spacesOnly (l : List Char) : Prop :=
  ∀ c ∈ l, isPySpace c = true → c = ' '

/-- Every character of the list is on the whitelist. -/
def allAllowed (l : List Char) : Prop :=
  ∀ c ∈ l, isAllowedChar c = true

/-- The head, if any, is not whitespace. -/
def headNotWs : List Char → Bool
  | [] => true
  | c :: _ => !isPySpace c

/-- No two adjacent whitespace characters. -/
def noTwoWs : List Char → Bool
  | [] => true
  | c :: rest => (!isPySpace c || headNotWs rest) && noTwoWs rest

/-- The last character, if any, is not whitespace. -/
def lastNotWs : List Char → Bool
  | [] => true
  | [c] => !isPySpace c
  | _ :: rest => lastNotWs rest

/-- The section captures the three context patterns of extract_skills
produce on this lowercased text, in source order. -/
def capturedSecs (tl : List Char) : List (List Char) :=
  [sectionSearch skillsLabelCap tl, sectionSearch techLabelCap tl,
   sectionSearch expertiseLabelCap tl].filterMap (fun o => o)

/-- A reported tag is justified when it owns a variation that matches the
lowercased text word-bounded, or occurs as a plain substring of one of the
captured skill-section spans. -/
def tagJustified (tag : String) (text : List Char) : Bool :=
  let tl := text.map Char.toLower
  SKILL_KEYWORDS.any (fun p =>
    p.1 == tag &&
    (p.2.any (fun v => wbSearch v.toList false tl) ||
     (capturedSecs tl).any
       (fun sec => p.2.any (fun v => listIsInfixOf v.toList (sec.map Char.toLower)))))

/-- The canonical tags: the keys of the vocabulary. -/
def skillTags : List String :=
  SKILL_KEYWORDS.map Prod.fst

set_option maxRecDepth 1000000

/-- C1 counterexample: running the pipeline of process_cv on the DOCX whose
paragraphs are John Smith, john@x.com, and the five-years line does not
produce the claimed record: the skills are only the python tag (django is a
variation of python, not a tag), the category is Senior Professional, not
Senior Python Developer, and the extracted name is empty because cleaning
collapsed the newlines, leaving one 63-character line. -/
theorem claim_C1_counterexample :
    extract_text ".docx".toList noPdf c1Docx =
      Except.ok (extract_text_from_docx c1Docx) ∧
    extract_skills c1Text = ["python"] ∧
    (extract_skills c1Text == ["python", "django"]) = false ∧
    categorize_candidate (extract_skills c1Text) (extract_experience c1Text) =
      "Senior Professional" ∧
    (categorize_candidate (extract_skills c1Text) (extract_experience c1Text) ==
      "Senior Python Developer") = false := by
  refine ⟨rfl, by decide, by decide, by decide, by decide⟩

/-- C1 amended: the pipeline as sequenced in process_cv on that DOCX yields
an empty extracted name (so the caller keeps its previous name), email
john@x.com, skills consisting of the single tag python, experience 5.0, and
category Senior Professional. -/
theorem claim_C1_amended :
    extract_name c1Text = [] ∧
    extract_email c1Text = "john@x.com".toList ∧
    extract_skills c1Text = ["python"] ∧
    extract_experience c1Text = 5 ∧
    categorize_candidate (extract_skills c1Text) (extract_experience c1Text) =
      "Senior Professional" := by
  refine ⟨by decide, by decide, by decide, by decide, by decide⟩

/-- C2 counterexample: in the text skills: javascripting, the string java
occurs only as a proper substring of javascripting, and indeed the
word-bounded search of the first phase does not find it, yet extract_skills
reports the java tag, because the skills-section phase matches variations as
plain substrings. -/
theorem claim_C2_counterexample :
    wbSearch "java".toList false
      ("skills: javascripting\n\nend".toList.map Char.toLower) = false ∧
    extract_skills "skills: javascripting\n\nend".toList =
      ["java", "javascript"] := by
  refine ⟨by decide, by decide⟩

/-- C3: categorize_candidate takes the first rule in order whose predicate
holds: python with django at six years is Senior Python Developer, the same
skills at two years fall to Python Developer, and excel with sql at zero
years is Data Analyst rather than the experience fallback. -/
theorem claim_C3 :
    categorize_candidate ["python", "django"] 6 = "Senior Python Developer" ∧
    categorize_candidate ["python", "django"] 2 = "Python Developer" ∧
    categorize_candidate ["excel", "sql"] 0 = "Data Analyst" := by
  refine ⟨by decide, by decide, by decide⟩

/-- C5 counterexample: on the text 3-5 years, extract_experience returns
5.0, not the claimed range mean 4.0, because the third numeric pattern also
matches the 5 years suffix and the maximum of 5.0 and 4.0 is 5.0. -/
theorem claim_C5_counterexample :
    extract_experience "3-5 years".toList = 5 ∧
    (extract_experience "3-5 years".toList == (4 : Rat)) = false := by
  refine ⟨by decide, by decide⟩

/-- C5 amended: extract_experience collects one candidate per numeric
pattern match, a range contributing the mean, and returns the maximum of
the collected candidates or zero if none: 5+ years experience gives 5.0,
24 months gives 2.0, the empty text gives 0.0, but 3-5 years gives 5.0,
since the 5 years suffix also matches the plain years pattern and exceeds
the range mean 4.0. -/
theorem claim_C5_amended :
    extract_experience "5+ years experience".toList = 5 ∧
    extract_experience "3-5 years".toList = 5 ∧
    extract_experience "24 months".toList = 2 ∧
    extract_experience [] = 0 := by
  refine ⟨by decide, by decide, by decide, by decide⟩

/-- C9 counterexample: in the summary re-run the months conversion is not
applied: for the text summary: 24 months followed by a blank line, the
summary span contributes the raw 24, so extract_experience returns 24.0
rather than 2.0. -/
theorem claim_C9_counterexample :
    extract_experience "summary: 24 months\n\nend".toList = 24 ∧
    (extract_experience "summary: 24 months\n\nend".toList == (2 : Rat)) = false := by
  refine ⟨by decide, by decide⟩

/-- C9 amended: a months match of the main full-text pass contributes its
count divided by twelve, but the summary re-run appends the float of the
first group with no conversion, so a months match there contributes the raw
count (and a range match its lower bound): 24 months alone gives 2.0, while
under a summary header the main pass contributes 2.0, the summary pass
contributes 24.0, and the maximum 24.0 is returned. -/
theorem claim_C9_amended :
    extract_experience "24 months".toList = 2 ∧
    mainPatternYears ("summary: 24 months\n\nend".toList.map Char.toLower) = [2] ∧
    summaryYears ("summary: 24 months\n\nend".toList.map Char.toLower) = [24] ∧
    extract_experience "summary: 24 months\n\nend".toList = 24 := by
  refine ⟨by decide, by decide, by decide, by decide⟩

/-- C6 counterexample: on the input a, three newlines, b, the two non-blank
lines do not come out separated by one blank line: the cleaned text is a
space b with no newline at all. -/
theorem claim_C6_counterexample :
    clean_extracted_text "a\n\n\nb".toList = "a b".toList ∧
    ((clean_extracted_text "a\n\n\nb".toList).contains '\n') = false := by
  refine ⟨by decide, by decide⟩

/-- C8 counterexample: clean_extracted_text is not idempotent: the
whitelist substitution runs after whitespace collapsing and replaces each
banned character with a space, so a**b cleans to a double-spaced a  b,
which a second application collapses to a b. -/
theorem claim_C8_counterexample :
    clean_extracted_text "a**b".toList = "a  b".toList ∧
    clean_extracted_text (clean_extracted_text "a**b".toList) = "a b".toList ∧
    (clean_extracted_text (clean_extracted_text "a**b".toList) ==
      clean_extracted_text "a**b".toList) = false := by
  refine ⟨by decide, by decide, by decide⟩

theorem addSkills_mem {test : String → Bool} :
    ∀ (kw : List (String × List String)) (acc : List String) (x : String),
      x ∈ addSkills test kw acc →
      x ∈ acc ∨ ∃ p, p ∈ kw ∧ p.1 = x ∧ p.2.any test = true := by
  intro kw
  induction kw with
  | nil => intro acc x h; exact Or.inl h
  | cons p rest ih =>
    intro acc x h
    obtain ⟨skill, vars⟩ := p
    simp only [addSkills] at h
    rcases ih _ x h with h1 | ⟨q, hq, hqx, hqa⟩
    · by_cases hp : vars.any test = true
      · simp only [hp, if_true] at h1
        by_cases hc : acc.contains skill
        · simp only [hc, if_true] at h1
          exact Or.inl h1
        · simp only [hc, if_false] at h1
          rcases List.mem_append.mp h1 with h2 | h2
          · exact Or.inl h2
          · simp only [List.mem_singleton] at h2
            subst h2
            exact Or.inr ⟨(x, vars), by simp, rfl, hp⟩
      · simp only [Bool.not_eq_true] at hp
        simp only [hp, if_false] at h1
        exact Or.inl h1
    · exact Or.inr ⟨q, by simp [hq], hqx, hqa⟩

theorem sectionPass_mem (sec : Option (List Char)) (acc : List String) (x : String)
    (h : x ∈ sectionPass sec acc) :
    x ∈ acc ∨ ∃ s, sec = some s ∧ ∃ p, p ∈ SKILL_KEYWORDS ∧ p.1 = x ∧
      p.2.any (fun v => listIsInfixOf v.toList (s.map Char.toLower)) = true := by
  cases sec with
  | none => exact Or.inl h
  | some s =>
    rcases addSkills_mem _ _ _ h with h1 | ⟨p, hp, hpx, hpa⟩
    · exact Or.inl h1
    · exact Or.inr ⟨s, rfl, p, hp, hpx, hpa⟩

theorem extract_skills_justified (text : List Char) (tag : String)
    (h : tag ∈ extract_skills text) : tagJustified tag text = true := by
  have secMem : ∀ (m : List Char → Option (List Char)) (s : List Char),
      sectionSearch m (text.map Char.toLower) = some s →
      m = skillsLabelCap ∨ m = techLabelCap ∨ m = expertiseLabelCap →
      s ∈ capturedSecs (text.map Char.toLower) := by
    intro m s hm hOr
    simp only [capturedSecs, List.mem_filterMap]
    rcases hOr with rfl | rfl | rfl
    · exact ⟨sectionSearch skillsLabelCap (text.map Char.toLower), by simp, hm⟩
    · exact ⟨sectionSearch techLabelCap (text.map Char.toLower), by simp, hm⟩
    · exact ⟨sectionSearch expertiseLabelCap (text.map Char.toLower), by simp, hm⟩
  have just : ∀ (p : String × List String), p ∈ SKILL_KEYWORDS → p.1 = tag →
      (p.2.any (fun v => wbSearch v.toList false (text.map Char.toLower)) = true ∨
       ∃ s, s ∈ capturedSecs (text.map Char.toLower) ∧
         p.2.any (fun v => listIsInfixOf v.toList (s.map Char.toLower)) = true) →
      tagJustified tag text = true := by
    intro p hp hpx hcase
    simp only [tagJustified, List.any_eq_true]
    refine ⟨p, hp, ?_⟩
    rw [Bool.and_eq_true]
    constructor
    · rw [hpx]; exact beq_self_eq_true tag
    · rw [Bool.or_eq_true]
      rcases hcase with hw | ⟨s, hs, ha⟩
      · exact Or.inl hw
      · exact Or.inr (by rw [List.any_eq_true]; exact ⟨s, hs, ha⟩)
  simp only [extract_skills] at h
  rcases sectionPass_mem _ _ _ h with h3 | ⟨s, hs, p, hp, hpx, hpa⟩
  · rcases sectionPass_mem _ _ _ h3 with h2 | ⟨s, hs, p, hp, hpx, hpa⟩
    · rcases sectionPass_mem _ _ _ h2 with h1 | ⟨s, hs, p, hp, hpx, hpa⟩
      · rcases addSkills_mem _ _ _ h1 with h0 | ⟨p, hp, hpx, hpa⟩
        · simp at h0
        · exact just p hp hpx (Or.inl hpa)
      · exact just p hp hpx
          (Or.inr ⟨s, secMem _ _ hs (Or.inl rfl), hpa⟩)
    · exact just p hp hpx
        (Or.inr ⟨s, secMem _ _ hs (Or.inr (Or.inl rfl)), hpa⟩)
  · exact just p hp hpx
      (Or.inr ⟨s, secMem _ _ hs (Or.inr (Or.inr rfl)), hpa⟩)

theorem extract_skills_tags (text : List Char) (tag : String)
    (h : tag ∈ extract_skills text) : tag ∈ skillTags := by
  have hj := extract_skills_justified text tag h
  simp only [tagJustified, List.any_eq_true] at hj
  obtain ⟨p, hp, hpe⟩ := hj
  rw [Bool.and_eq_true] at hpe
  have : p.1 = tag := by
    have := hpe.1
    simpa [beq_iff_eq] using this
  rw [← this]
  exact List.mem_map_of_mem _ hp

/-- C2 corrected: a tag is reported only when one of its variations matches
the lowercased text word-bounded, or occurs as a plain substring of a
captured skills, technical skills or expertise section span; the
word-boundary guarantee holds for the whole-text pass, so I know Java and
JavaScript yields exactly java and javascript and a bare javascripting
yields nothing, but inside a captured skills section variations match as
substrings, so skills: javascripting reports java as well. -/
theorem claim_C2_amended :
    (∀ (text : List Char) (tag : String),
      tag ∈ extract_skills text → tagJustified tag text = true) ∧
    extract_skills "I know Java and JavaScript".toList = ["java", "javascript"] ∧
    extract_skills "javascripting".toList = [] ∧
    extract_skills "skills: javascripting\n\nend".toList = ["java", "javascript"] := by
  refine ⟨extract_skills_justified, by decide, by decide, by decide⟩

/-- C2 witness: the amended soundness applied to a concrete text and tag. -/
theorem claim_C2_witness :
    ("java" ∈ extract_skills "I know Java and JavaScript".toList) ∧
    tagJustified "java" "I know Java and JavaScript".toList = true :=
  ⟨by decide, claim_C2_amended.1 _ "java" (by decide)⟩

/-- C10: for every text and every experience value, categorizing the
extracted skills never yields Senior Python Developer, Python Developer or
Full Stack Developer: extract_skills only returns vocabulary keys, django,
flask and html are variations rather than keys, so the first two predicates
cannot hold, and any skills list satisfying the Full Stack predicate
already satisfies the earlier Web Developer predicate. -/
theorem claim_C10 : ∀ (t : List Char) (e : Rat),
    ((categorize_candidate (extract_skills t) e == "Senior Python Developer") ||
     (categorize_candidate (extract_skills t) e == "Python Developer") ||
     (categorize_candidate (extract_skills t) e == "Full Stack Developer")) = false := by
  intro t e
  have hmem : ∀ x ∈ extract_skills t, x ∈ skillTags :=
    fun x hx => extract_skills_tags t x hx
  have hno : ∀ x : String, ¬ x ∈ skillTags → (extract_skills t).contains x = false := by
    intro x hx
    by_contra hcon
    rw [Bool.not_eq_false] at hcon
    exact hx (hmem _ (List.elem_iff.mp hcon))
  have hd := hno "django" (by decide)
  have hf := hno "flask" (by decide)
  have hh := hno "html" (by decide)
  simp only [categorize_candidate, categoryRules, firstRule, hd, hf, hh,
    Bool.or_false, Bool.false_or, Bool.and_false, Bool.false_and]
  simp only [Bool.false_eq_true, if_false]
  split_ifs with h3 h4 h5 h6 h7 h8 h9 h10 h11
  all_goals try rfl
  · rw [Bool.and_eq_true, Bool.and_eq_true] at h8
    exact absurd h8.1.2 h7
  · show ((defaultCategory e == "Senior Python Developer") ||
        (defaultCategory e == "Python Developer") ||
        (defaultCategory e == "Full Stack Developer")) = false
    simp only [defaultCategory]
    split_ifs <;> rfl


theorem firstRule_some :
    ∀ (rules : List (String × (List String → Rat → Bool))) (s : List String)
      (e : Rat) (n : String),
      firstRule rules s e = some n → ∃ c, (n, c) ∈ rules ∧ c s e = true := by
  intro rules
  induction rules with
  | nil => intro s e n h; simp [firstRule] at h
  | cons r rest ih =>
    intro s e n h
    obtain ⟨m, c⟩ := r
    simp only [firstRule] at h
    by_cases hc : c s e = true
    · rw [if_pos hc] at h
      obtain rfl : m = n := Option.some.inj h
      exact ⟨c, by simp, hc⟩
    · rw [if_neg hc] at h
      obtain ⟨c2, hc2, hct⟩ := ih s e n h
      exact ⟨c2, by simp [hc2], hct⟩

/-- C4: categorize_candidate is total: for every skills list and every
nonnegative experience it returns a nonempty category, and when no rule
predicate holds, the experience ladder decides: zero is Fresher, below two
Junior Developer, below five Mid-Level Developer, otherwise Senior
Professional. -/
theorem claim_C4 : ∀ (s : List String) (e : Rat), 0 ≤ e →
    0 < (categorize_candidate s e).length ∧
    (categoryRules.all (fun r => !(r.2 s e)) = true →
      (e = 0 → categorize_candidate s e = "Fresher") ∧
      (0 < e → e < 2 → categorize_candidate s e = "Junior Developer") ∧
      (2 ≤ e → e < 5 → categorize_candidate s e = "Mid-Level Developer") ∧
      (5 ≤ e → categorize_candidate s e = "Senior Professional")) := by
  intro s e he
  cases hfr : firstRule categoryRules s e with
  | some n =>
    obtain ⟨c, hmemr, hct⟩ := firstRule_some _ _ _ _ hfr
    have hcat : categorize_candidate s e = n := by
      simp [categorize_candidate, hfr]
    constructor
    · rw [hcat]
      have hall : categoryRules.all (fun r => decide (0 < r.1.length)) = true := by decide
      rw [List.all_eq_true] at hall
      exact of_decide_eq_true (hall (n, c) hmemr)
    · intro hall
      rw [List.all_eq_true] at hall
      have := hall (n, c) hmemr
      simp only [Bool.not_eq_true'] at this
      rw [this] at hct
      exact absurd hct (by simp)
  | none =>
    have hcat : categorize_candidate s e = defaultCategory e := by
      simp [categorize_candidate, hfr]
    rw [hcat]
    constructor
    · simp only [defaultCategory]
      split_ifs <;> decide
    · intro _
      refine ⟨?_, ?_, ?_, ?_⟩
      · intro h0; simp [defaultCategory, h0]
      · intro hgt hlt
        have hne : e ≠ 0 := ne_of_gt hgt
        simp [defaultCategory, hne, hlt]
      · intro h2 h5
        have hne : e ≠ 0 := by intro h; rw [h] at h2; norm_num at h2
        have hnlt : ¬ e < 2 := not_lt.mpr h2
        simp [defaultCategory, hne, hnlt, h5]
      · intro h5
        have hne : e ≠ 0 := by intro h; rw [h] at h5; norm_num at h5
        have hnlt2 : ¬ e < 2 := not_lt.mpr (by linarith)
        have hnlt5 : ¬ e < 5 := not_lt.mpr h5
        simp [defaultCategory, hne, hnlt2, hnlt5]

/-- C4 witness: the empty skills list at zero experience is categorized, and
as Fresher. -/
theorem claim_C4_witness :
    (0 : Rat) ≤ 0 ∧ 0 < (categorize_candidate [] 0).length ∧
    categorize_candidate [] 0 = "Fresher" := by
  refine ⟨le_refl 0, (claim_C4 [] 0 (le_refl 0)).1, ?_⟩
  exact ((claim_C4 [] 0 (le_refl 0)).2 (by decide)).1 rfl

theorem pagesText_nil (n : Nat) : pagesText [] n = [] := by
  simp [pagesText]

/-- C7: extract_text fails exactly when the lowercased extension is neither
pdf nor docx, and then with the unsupported-format message; on the two
supported formats every strategy failure is absorbed into the behaviour
record and the function returns a value, in the worst case the empty
string. -/
theorem extract_text_eq (ext : List Char) (pdf : PdfBehavior) (dx : DocxBehavior) :
    extract_text ext pdf dx =
      if ext.map Char.toLower = ".pdf".toList then
        Except.ok (extract_text_from_pdf pdf)
      else if ext.map Char.toLower = ".docx".toList then
        Except.ok (extract_text_from_docx dx)
      else
        Except.error ("Unsupported file format: ".toList ++ ext.map Char.toLower) := rfl

theorem claim_C7 :
    (∀ (ext : List Char) (pdf : PdfBehavior) (dx : DocxBehavior),
      (exceptIsOk (extract_text ext pdf dx) = true ↔
        (ext.map Char.toLower = ".pdf".toList ∨ ext.map Char.toLower = ".docx".toList)) ∧
      (ext.map Char.toLower ≠ ".pdf".toList → ext.map Char.toLower ≠ ".docx".toList →
        extract_text ext pdf dx =
          Except.error ("Unsupported file format: ".toList ++ ext.map Char.toLower))) ∧
    (∀ pdf : PdfBehavior, pdf.plumberPages = [] → pdf.pypdfPages = [] →
      (pdf.minerText = none ∨ pdf.minerText = some []) →
      extract_text_from_pdf pdf = []) ∧
    (∀ dx : DocxBehavior, dx.paragraphs = [] → dx.tableCells = [] →
      extract_text_from_docx dx = []) := by
  refine ⟨?_, ?_, ?_⟩
  · intro ext pdf dx
    constructor
    · by_cases h1 : ext.map Char.toLower = ".pdf".toList
      · rw [extract_text_eq, if_pos h1]
        simp [exceptIsOk, h1]
      · by_cases h2 : ext.map Char.toLower = ".docx".toList
        · rw [extract_text_eq, if_neg h1, if_pos h2]
          simp [exceptIsOk, h2]
        · rw [extract_text_eq, if_neg h1, if_neg h2]
          simp only [exceptIsOk]
          constructor
          · intro hcon; exact absurd hcon (by decide)
          · intro hab
            rcases hab with h | h
            · exact absurd h h1
            · exact absurd h h2
    · intro h1 h2
      rw [extract_text_eq, if_neg h1, if_neg h2]
  · intro pdf h1 h2 h3
    have hps : pyStrip ([] : List Char) = [] := rfl
    rcases h3 with h3 | h3 <;> cases hma : pdf.minerAvail <;>
      simp [extract_text_from_pdf, h1, h2, h3, hma, pagesText_nil, hps]
  · intro dx h1 h2
    cases ha : dx.avail <;>
      simp [extract_text_from_docx, h1, h2, ha, docxJoin]

/-- C7 witness: a txt extension is rejected, a document with no usable PDF
strategy yields the empty string, and an empty DOCX yields the empty
string. -/
theorem claim_C7_witness :
    exceptIsOk (extract_text ".txt".toList noPdf c1Docx) = false ∧
    extract_text_from_pdf noPdf = [] ∧
    extract_text_from_docx
      { avail := true, paragraphs := [], tableCells := [], failsAfter := none } = [] := by
  refine ⟨?_, ?_, ?_⟩
  · have h := (claim_C7.1 ".txt".toList noPdf c1Docx).1
    rw [Bool.eq_false_iff]
    intro hcon
    rcases h.mp hcon with h1 | h1 <;> exact absurd h1 (by decide)
  · exact claim_C7.2.1 noPdf rfl rfl (Or.inl rfl)
  · exact claim_C7.2.2 _ rfl rfl

theorem spacesOnly_collapseWsA : ∀ (l : List Char) (b : Bool),
    spacesOnly (collapseWsA b l) := by
  intro l
  induction l with
  | nil => intro b c hc; simp [collapseWsA] at hc
  | cons c rest ih =>
    intro b d hd hw
    by_cases hc : isPySpace c = true
    · cases b with
      | true =>
        simp only [collapseWsA, hc, if_true] at hd
        exact ih true d hd hw
      | false =>
        simp only [collapseWsA, hc, if_true] at hd
        rcases List.mem_cons.mp hd with rfl | hd2
        · rfl
        · exact ih true d hd2 hw
    · rw [Bool.not_eq_true] at hc
      simp only [collapseWsA, hc, Bool.false_eq_true, if_false] at hd
      rcases List.mem_cons.mp hd with rfl | hd2
      · rw [hc] at hw; exact absurd hw (by simp)
      · exact ih false d hd2 hw

theorem collapseWsA_shape : ∀ (l : List Char) (b : Bool),
    noTwoWs (collapseWsA b l) = true ∧
    (b = true → headNotWs (collapseWsA b l) = true) := by
  intro l
  induction l with
  | nil => intro b; exact ⟨rfl, fun _ => rfl⟩
  | cons c rest ih =>
    intro b
    by_cases hc : isPySpace c = true
    · cases b with
      | true =>
        simp only [collapseWsA, hc, if_true]
        exact ⟨(ih true).1, fun _ => (ih true).2 rfl⟩
      | false =>
        simp only [collapseWsA, hc, if_true]
        constructor
        · simp only [noTwoWs, headNotWs]
          rw [Bool.and_eq_true]
          constructor
          · rw [Bool.or_eq_true]
            exact Or.inr ((ih true).2 rfl)
          · exact (ih true).1
        · intro hb; exact absurd hb (by simp)
    · rw [Bool.not_eq_true] at hc
      simp only [collapseWsA, hc, Bool.false_eq_true, if_false]
      constructor
      · simp only [noTwoWs]
        rw [Bool.and_eq_true]
        constructor
        · rw [Bool.or_eq_true]
          exact Or.inl (by rw [hc]; rfl)
        · exact (ih false).1
      · intro _
        simp only [headNotWs, hc]
        rfl

theorem collapseWsA_id : ∀ (l : List Char) (b : Bool),
    noTwoWs l = true → spacesOnly l →
    (b = true → headNotWs l = true) → collapseWsA b l = l := by
  intro l
  induction l with
  | nil => intro b _ _ _; rfl
  | cons c rest ih =>
    intro b hnt hsp hb
    have hnt1 : (!isPySpace c || headNotWs rest) = true ∧ noTwoWs rest = true := by
      rw [← Bool.and_eq_true]
      simpa [noTwoWs] using hnt
    by_cases hc : isPySpace c = true
    · have hcsp : c = ' ' := hsp c (by simp) hc
      have hbfalse : b = false := by
        cases b with
        | false => rfl
        | true =>
          have := hb rfl
          simp [headNotWs, hc] at this
      subst hbfalse
      simp only [collapseWsA, hc, if_true]
      have hhr : headNotWs rest = true := by
        rcases Bool.or_eq_true _ _ |>.mp hnt1.1 with h | h
        · rw [hc] at h; exact absurd h (by simp)
        · exact h
      rw [ih true hnt1.2 (fun d hd hw => hsp d (by simp [hd]) hw) (fun _ => hhr)]
      rw [hcsp]
      rfl
    · rw [Bool.not_eq_true] at hc
      simp only [collapseWsA, hc, Bool.false_eq_true, if_false]
      rw [ih false hnt1.2 (fun d hd hw => hsp d (by simp [hd]) hw) (by simp)]

theorem allAllowed_mapAllowed (l : List Char) : allAllowed (mapAllowed l) := by
  intro c hc
  simp only [mapAllowed, List.mem_map] at hc
  obtain ⟨a, _, ha⟩ := hc
  by_cases hall : isAllowedChar a = true
  · rw [if_pos hall] at ha; rw [← ha]; exact hall
  · rw [if_neg hall] at ha; rw [← ha]; decide

theorem mapAllowed_id (l : List Char) (h : allAllowed l) : mapAllowed l = l := by
  induction l with
  | nil => rfl
  | cons c rest ih =>
    simp only [mapAllowed, List.map_cons]
    rw [if_pos (h c (by simp))]
    have := ih (fun d hd => h d (by simp [hd]))
    simp only [mapAllowed] at this
    rw [this]

theorem spacesOnly_mapAllowed (l : List Char) (h : spacesOnly l) :
    spacesOnly (mapAllowed l) := by
  intro c hc hw
  simp only [mapAllowed, List.mem_map] at hc
  obtain ⟨a, ha, hfa⟩ := hc
  by_cases hall : isAllowedChar a = true
  · rw [if_pos hall] at hfa
    rw [← hfa] at hw ⊢
    exact h a ha hw
  · rw [if_neg hall] at hfa
    rw [← hfa]

theorem allAllowed_collapseWsA : ∀ (l : List Char) (b : Bool), allAllowed l →
    allAllowed (collapseWsA b l) := by
  intro l
  induction l with
  | nil => intro b _ c hc; simp [collapseWsA] at hc
  | cons c rest ih =>
    intro b h d hd
    by_cases hc : isPySpace c = true
    · cases b with
      | true =>
        simp only [collapseWsA, hc, if_true] at hd
        exact ih true (fun x hx => h x (by simp [hx])) d hd
      | false =>
        simp only [collapseWsA, hc, if_true] at hd
        rcases List.mem_cons.mp hd with rfl | hd2
        · decide
        · exact ih true (fun x hx => h x (by simp [hx])) d hd2
    · rw [Bool.not_eq_true] at hc
      simp only [collapseWsA, hc, Bool.false_eq_true, if_false] at hd
      rcases List.mem_cons.mp hd with rfl | hd2
      · exact h d (by simp)
      · exact ih false (fun x hx => h x (by simp [hx])) d hd2

theorem noCr_of_spacesOnly (l : List Char) (h : spacesOnly l) : '\r' ∉ l := by
  intro hm
  have := h '\r' hm (by decide)
  exact absurd this (by decide)

theorem noNl_of_spacesOnly (l : List Char) (h : spacesOnly l) : '\n' ∉ l := by
  intro hm
  have := h '\n' hm (by decide)
  exact absurd this (by decide)

theorem replCrLf_id : ∀ (l : List Char), '\r' ∉ l → replCrLf l = l := by
  intro l
  induction l with
  | nil => intro _; rfl
  | cons c rest ih =>
    intro h
    cases rest with
    | nil => rfl
    | cons d rest2 =>
      have hc : c ≠ '\r' := fun hq => h (by simp [hq])
      simp only [replCrLf]
      rw [if_neg (by simp [hc])]
      have : replCrLf (d :: rest2) = d :: rest2 :=
        ih (fun hm => h (List.mem_cons_of_mem c hm))
      rw [this]

theorem replCr_id (l : List Char) (h : '\r' ∉ l) : replCr l = l := by
  induction l with
  | nil => rfl
  | cons c rest ih =>
    have hc : c ≠ '\r' := fun hq => h (by simp [hq])
    simp only [replCr, List.map_cons]
    rw [if_neg hc]
    have := ih (fun hm => h (List.mem_cons_of_mem c hm))
    simp only [replCr] at this
    rw [this]

theorem collapseBlankF_id : ∀ (fuel : Nat) (l : List Char), '\n' ∉ l →
    collapseBlankF fuel l = l := by
  intro fuel
  induction fuel with
  | zero => intro l _; rfl
  | succ n ih =>
    intro l h
    cases l with
    | nil => rfl
    | cons c rest =>
      have hc : c ≠ '\n' := fun hq => h (by simp [hq])
      simp only [collapseBlankF]
      rw [if_neg hc]
      rw [ih rest (fun hm => h (List.mem_cons_of_mem c hm))]

theorem headNotWs_dropWhile (l : List Char) :
    headNotWs (l.dropWhile isPySpace) = true := by
  induction l with
  | nil => rfl
  | cons c rest ih =>
    by_cases hc : isPySpace c = true
    · rw [List.dropWhile_cons_of_pos hc]; exact ih
    · rw [Bool.not_eq_true] at hc
      rw [List.dropWhile_cons_of_neg (by simp [hc])]
      simp [headNotWs, hc]

theorem mem_dropWhile (l : List Char) (c : Char)
    (h : c ∈ l.dropWhile isPySpace) : c ∈ l := by
  induction l with
  | nil => simp at h
  | cons d rest ih =>
    by_cases hd : isPySpace d = true
    · rw [List.dropWhile_cons_of_pos hd] at h
      exact List.mem_cons_of_mem d (ih h)
    · rw [Bool.not_eq_true] at hd
      rw [List.dropWhile_cons_of_neg (by simp [hd])] at h
      exact h

theorem noTwoWs_dropWhile (l : List Char) (h : noTwoWs l = true) :
    noTwoWs (l.dropWhile isPySpace) = true := by
  induction l with
  | nil => rfl
  | cons c rest ih =>
    have hparts : (!isPySpace c || headNotWs rest) = true ∧ noTwoWs rest = true := by
      rw [← Bool.and_eq_true]
      simpa [noTwoWs] using h
    by_cases hc : isPySpace c = true
    · rw [List.dropWhile_cons_of_pos hc]
      exact ih hparts.2
    · rw [Bool.not_eq_true] at hc
      rw [List.dropWhile_cons_of_neg (by simp [hc])]
      exact h

theorem dropWhile_ws_id (l : List Char) (h : headNotWs l = true) :
    l.dropWhile isPySpace = l := by
  cases l with
  | nil => rfl
  | cons c rest =>
    simp only [headNotWs, Bool.not_eq_true'] at h
    rw [List.dropWhile_cons_of_neg (by simp [h])]

theorem mem_dropTrailingWs (l : List Char) (c : Char)
    (h : c ∈ dropTrailingWs l) : c ∈ l := by
  induction l with
  | nil => simp [dropTrailingWs] at h
  | cons d rest ih =>
    simp only [dropTrailingWs] at h
    by_cases hcond : ((dropTrailingWs rest).isEmpty && isPySpace d) = true
    · rw [if_pos hcond] at h; simp at h
    · rw [if_neg hcond] at h
      rcases List.mem_cons.mp h with rfl | h2
      · simp
      · exact List.mem_cons_of_mem d (ih h2)

theorem headNotWs_dropTrailingWs (l : List Char) (h : headNotWs l = true) :
    headNotWs (dropTrailingWs l) = true := by
  cases l with
  | nil => rfl
  | cons c rest =>
    simp only [dropTrailingWs]
    by_cases hcond : ((dropTrailingWs rest).isEmpty && isPySpace c) = true
    · rw [if_pos hcond]; rfl
    · rw [if_neg hcond]
      simpa [headNotWs] using h

theorem lastNotWs_dropTrailingWs (l : List Char) :
    lastNotWs (dropTrailingWs l) = true := by
  induction l with
  | nil => rfl
  | cons c rest ih =>
    simp only [dropTrailingWs]
    by_cases hcond : ((dropTrailingWs rest).isEmpty && isPySpace c) = true
    · rw [if_pos hcond]; rfl
    · rw [if_neg hcond]
      cases hr : dropTrailingWs rest with
      | nil =>
        rw [hr] at hcond
        simp only [List.isEmpty_nil, Bool.true_and] at hcond
        rw [Bool.not_eq_true] at hcond
        simp [lastNotWs, hcond]
      | cons d r2 =>
        rw [hr] at ih
        simpa [lastNotWs] using ih

theorem dropTrailingWs_id (l : List Char) (h : lastNotWs l = true) :
    dropTrailingWs l = l := by
  induction l with
  | nil => rfl
  | cons c rest ih =>
    cases rest with
    | nil =>
      simp only [lastNotWs, Bool.not_eq_true'] at h
      simp [dropTrailingWs, h]
    | cons d r2 =>
      have hr : dropTrailingWs (d :: r2) = d :: r2 := ih (by simpa [lastNotWs] using h)
      simp only [dropTrailingWs] at hr ⊢
      rw [hr]
      simp

theorem noTwoWs_dropTrailingWs (l : List Char) (h : noTwoWs l = true) :
    noTwoWs (dropTrailingWs l) = true := by
  induction l with
  | nil => rfl
  | cons c rest ih =>
    have hparts : (!isPySpace c || headNotWs rest) = true ∧ noTwoWs rest = true := by
      rw [← Bool.and_eq_true]
      simpa [noTwoWs] using h
    simp only [dropTrailingWs]
    by_cases hcond : ((dropTrailingWs rest).isEmpty && isPySpace c) = true
    · rw [if_pos hcond]; rfl
    · rw [if_neg hcond]
      have hhead : (!isPySpace c || headNotWs (dropTrailingWs rest)) = true := by
        rcases Bool.or_eq_true _ _ |>.mp hparts.1 with h1 | h1
        · rw [Bool.or_eq_true]; exact Or.inl h1
        · rw [Bool.or_eq_true]
          exact Or.inr (headNotWs_dropTrailingWs rest h1)
      simp only [noTwoWs]
      rw [Bool.and_eq_true]
      exact ⟨hhead, ih hparts.2⟩

theorem mem_pyStrip (l : List Char) (c : Char) (h : c ∈ pyStrip l) : c ∈ l :=
  mem_dropWhile l c (mem_dropTrailingWs _ c h)

theorem headNotWs_pyStrip (l : List Char) : headNotWs (pyStrip l) = true :=
  headNotWs_dropTrailingWs _ (headNotWs_dropWhile l)

theorem lastNotWs_pyStrip (l : List Char) : lastNotWs (pyStrip l) = true :=
  lastNotWs_dropTrailingWs _

theorem noTwoWs_pyStrip (l : List Char) (h : noTwoWs l = true) :
    noTwoWs (pyStrip l) = true :=
  noTwoWs_dropTrailingWs _ (noTwoWs_dropWhile l h)

theorem pyStrip_id (l : List Char) (h1 : headNotWs l = true)
    (h2 : lastNotWs l = true) : pyStrip l = l := by
  unfold pyStrip
  rw [dropWhile_ws_id l h1, dropTrailingWs_id l h2]

theorem clean_eq (l : List Char) :
    clean_extracted_text l = pyStrip (mapAllowed (collapseWs l)) := by
  cases l with
  | nil => rfl
  | cons c rest =>
    have h1 : spacesOnly (collapseWs (c :: rest)) := spacesOnly_collapseWsA _ false
    have h2 : spacesOnly (mapAllowed (collapseWs (c :: rest))) :=
      spacesOnly_mapAllowed _ h1
    have hcr : '\r' ∉ mapAllowed (collapseWs (c :: rest)) := noCr_of_spacesOnly _ h2
    have hnl : '\n' ∉ mapAllowed (collapseWs (c :: rest)) := noNl_of_spacesOnly _ h2
    show pyStrip (collapseBlank (replCr (replCrLf (mapAllowed (collapseWs (c :: rest)))))) = _
    rw [replCrLf_id _ hcr, replCr_id _ hcr]
    simp only [collapseBlank]
    rw [collapseBlankF_id _ _ hnl]

theorem collapseWs_id (l : List Char) (h1 : noTwoWs l = true)
    (h2 : spacesOnly l) : collapseWs l = l :=
  collapseWsA_id l false h1 h2 (by simp)

theorem char_contains_eq_false {a : Char} {l : List Char} (h : a ∉ l) :
    l.contains a = false := by
  by_contra hcon
  rw [Bool.not_eq_false] at hcon
  exact h (List.elem_iff.mp hcon)

theorem clean_spacesOnly (l : List Char) :
    spacesOnly (clean_extracted_text l) := by
  rw [clean_eq]
  intro c hc hw
  exact spacesOnly_mapAllowed _ (spacesOnly_collapseWsA _ false) c
    (mem_pyStrip _ c hc) hw

theorem clean_allAllowed (l : List Char) :
    allAllowed (clean_extracted_text l) := by
  rw [clean_eq]
  intro c hc
  exact allAllowed_mapAllowed _ c (mem_pyStrip _ c hc)

theorem allAllowed_collapseWs (l : List Char) (h : allAllowed l) :
    allAllowed (collapseWs l) :=
  allAllowed_collapseWsA l false h

theorem clean_clean_eq (l : List Char) :
    clean_extracted_text (clean_extracted_text l) =
      pyStrip (collapseWs (clean_extracted_text l)) := by
  rw [clean_eq (clean_extracted_text l)]
  rw [mapAllowed_id _ (allAllowed_collapseWs _ (clean_allAllowed l))]

/-- C6 corrected: the first substitution of clean_extracted_text collapses
every whitespace run, newlines included, to one space, so the later
line-ending normalization and blank-line collapsing act on newline-free
text: the output never contains a newline or carriage return, and two
non-blank lines separated by blank lines come out separated by a single
space, as on the input a, three newlines, b. -/
theorem claim_C6_amended :
    (∀ l : List Char,
      ((clean_extracted_text l).contains '\n' ||
       (clean_extracted_text l).contains '\r') = false) ∧
    clean_extracted_text "a\n\n\nb".toList = "a b".toList := by
  constructor
  · intro l
    have hsp := clean_spacesOnly l
    rw [char_contains_eq_false (noNl_of_spacesOnly _ hsp),
        char_contains_eq_false (noCr_of_spacesOnly _ hsp)]
    rfl
  · decide

/-- C8 corrected: clean_extracted_text is not idempotent, because the
whitelist substitution can create new double spaces after the whitespace
collapse has run; a second application reaches a fixed point: for every
string, cleaning three times equals cleaning twice. -/
theorem claim_C8_amended : ∀ l : List Char,
    clean_extracted_text (clean_extracted_text (clean_extracted_text l)) =
      clean_extracted_text (clean_extracted_text l) := by
  intro l
  have hsp : spacesOnly (pyStrip (collapseWs (clean_extracted_text l))) :=
    fun c hc hw => spacesOnly_collapseWsA _ false c (mem_pyStrip _ c hc) hw
  have hnt : noTwoWs (pyStrip (collapseWs (clean_extracted_text l))) = true :=
    noTwoWs_pyStrip _ (collapseWsA_shape _ false).1
  have hall : allAllowed (pyStrip (collapseWs (clean_extracted_text l))) :=
    fun c hc => allAllowed_collapseWs _ (clean_allAllowed l) c
      (mem_pyStrip _ c hc)
  rw [clean_clean_eq l, clean_eq, collapseWs_id _ hnt hsp,
    mapAllowed_id _ hall,
    pyStrip_id _ (headNotWs_pyStrip _) (lastNotWs_pyStrip _)]
